import Mathlib

/-!
Verification of the assembly core of a finite-element library
(`skfem/element/discrete_field.py`, `skfem/assembly/form/functional.py`,
`docs/examples/insulated.py`).

Numpy arrays are embedded as a shape vector together with a flat data buffer
in row-major (C) order, with exact rational entries.  Operations that can fail
in Python (attribute access on `None`, out-of-range indexing, shape mismatch)
return `Option`.
-/

/-- A dense numeric array: a shape and the flat row-major data buffer. -/
structure Arr where
  shape : List Nat
  data : List ℚ
deriving DecidableEq, Repr

/-- Number of entries described by a shape (product of the extents). -/
def shapeSize (s : List Nat) : Nat := s.foldr (fun a b => a * b) 1

/-- Numpy `zeros_like`: an array of the same shape with every entry zero. -/
def Arr.zerosLike (a : Arr) : Arr := Arr.mk a.shape (a.data.map (fun _ => 0))

/-- Elementwise product of two arrays of identical shape
(`x * y` on same-shaped ndarrays); `none` on shape mismatch. -/
def Arr.mul (a b : Arr) : Option Arr :=
  if a.shape = b.shape then
    some (Arr.mk a.shape (List.zipWith (fun p q => p * q) a.data b.data))
  else none

/-- Reading `a.shape[0]`: the leading extent, `none` for a 0-dimensional array. -/
def Arr.shape0 (a : Arr) : Option Nat :=
  match a.shape with
  | [] => none
  | n :: _ => some n

/-- Indexing `a[i]`: the slice of the leading axis at index `i`;
`none` when the array is 0-dimensional or `i` is out of range. -/
def Arr.getLead (a : Arr) (i : Nat) : Option Arr :=
  match a.shape with
  | [] => none
  | n :: rest =>
      if i < n then
        some (Arr.mk rest ((a.data.drop (i * shapeSize rest)).take (shapeSize rest)))
      else none

/-- Every entry of the buffer is zero. -/
def Arr.allZero (a : Arr) : Bool := a.data.all (fun q => q == 0)

/-- Two arrays have the same shape (and buffer length). -/
def Arr.sameShape (a b : Arr) : Bool :=
  a.shape == b.shape && a.data.length == b.data.length

/-- A `DiscreteField` is a named tuple of five optional arrays
(value, grad, div, curl, ggrad), from `skfem/element/discrete_field.py`. -/
structure DiscreteField where
  value : Option Arr
  grad : Option Arr
  div : Option Arr
  curl : Option Arr
  ggrad : Option Arr
deriving DecidableEq, Repr

/-- The tuple components in their declared order: iteration `for f in self`. -/
def DiscreteField.components (d : DiscreteField) : List (Option Arr) :=
  [d.value, d.grad, d.div, d.curl, d.ggrad]

/-- Accessor `f`: the value component. -/
def DiscreteField.f (d : DiscreteField) : Option Arr := d.value

/-- Accessor `df`: the first present of grad, div, curl, else `None`. -/
def DiscreteField.df (d : DiscreteField) : Option Arr :=
  match d.grad with
  | some g => some g
  | none =>
      match d.div with
      | some v => some v
      | none =>
          match d.curl with
          | some c => some c
          | none => none

/-- Accessor `ddf`: the ggrad component. -/
def DiscreteField.ddf (d : DiscreteField) : Option Arr := d.ggrad

/-- Python `__mul__` against another `DiscreteField`: `self.f * other.f`
(`none` when either value component is absent or shapes mismatch). -/
def DiscreteField.mul (a b : DiscreteField) : Option Arr :=
  match a.f, b.f with
  | some x, some y => Arr.mul x y
  | _, _ => none

/-- Python `__mul__` against a raw numeric array: `self.f * other`. -/
def DiscreteField.mulArr (a : DiscreteField) (c : Arr) : Option Arr :=
  match a.f with
  | some x => Arr.mul x c
  | none => none

/-- Python `__rmul__ = __mul__`: right multiplication by a raw array is the
very same operation as left multiplication. -/
def DiscreteField.rmulArr : DiscreteField → Arr → Option Arr := DiscreteField.mulArr

/-- Method `zeros_like`: each component mapped through zero-or-none, positions kept. -/
def DiscreteField.zerosLike (d : DiscreteField) : DiscreteField :=
  DiscreteField.mk (d.value.map Arr.zerosLike) (d.grad.map Arr.zerosLike)
    (d.div.map Arr.zerosLike) (d.curl.map Arr.zerosLike) (d.ggrad.map Arr.zerosLike)

/-- The present components in component order: `[f for f in self if f is not None]`. -/
def DiscreteField.presentComponents (d : DiscreteField) : List Arr :=
  d.components.filterMap (fun o => o)

/-- Positional construction `DiscreteField(*args)`: the list entries fill the
slots `value, grad, div, curl, ggrad` in order; missing trailing slots default
to `None`. -/
def DiscreteField.ofList : List Arr → DiscreteField
  | [] => DiscreteField.mk none none none none none
  | [a] => DiscreteField.mk (some a) none none none none
  | [a, b] => DiscreteField.mk (some a) (some b) none none none
  | [a, b, c] => DiscreteField.mk (some a) (some b) (some c) none none
  | [a, b, c, d] => DiscreteField.mk (some a) (some b) (some c) (some d) none
  | a :: b :: c :: d :: e :: _ => DiscreteField.mk (some a) (some b) (some c) (some d) (some e)

/-- Sequential option-valued map: a Python list comprehension whose element
expression may fail; the first failure aborts the whole comprehension. -/
def omap (g : α → Option β) : List α → Option (List β)
  | [] => some []
  | x :: xs =>
      match g x with
      | none => none
      | some y =>
          match omap g xs with
          | none => none
          | some ys => some (y :: ys)

/-- One entry of `_split`: the `i`-th leading-axis slices of the present
components, passed positionally to the constructor. -/
def DiscreteField.splitAt1 (d : DiscreteField) (i : Nat) : Option DiscreteField :=
  (omap (fun a => Arr.getLead a i) d.presentComponents).map DiscreteField.ofList

/-- Method `_split`: `[DiscreteField(*[f[i] for f in self if f is not None])
for i in range(self.f.shape[0])]`.  Fails (`none`) when the value component is
absent, when it is 0-dimensional, or when any slice is out of range. -/
def DiscreteField.split (d : DiscreteField) : Option (List DiscreteField) :=
  match d.f with
  | none => none
  | some v =>
      match v.shape0 with
      | none => none
      | some n => omap d.splitAt1 (List.range n)

/-!
The `Functional` form (`skfem/assembly/form/functional.py`).  The kernel
output and the integration measure `dx` are arrays shaped
(elements, quadrature points), embedded as rational matrices.
-/

/-- A matrix shaped (elements, quadrature points). -/
abbrev Mat : Type := List (List ℚ)

/-- The basis data `assemble` reads: the integration measure `dx`
(elements x quadrature points), the mapped coordinates and, for facet
bases, the outward normals. -/
structure GlobalBasis where
  dx : Mat
  x : Mat
  normals : Option Mat

/-- The parameter bundle handed to the kernel. -/
structure FormParameters (Aux : Type) where
  w : Aux
  dx : Mat
  x : Mat
  normals : Option Mat

/-- Modelled from the spec: `Form.parameters` (defined in
`skfem/assembly/form/form.py`, which is not among the visible sources) builds
the per-assemble `FormParameters` snapshot, bundling the basis-derived data
(integration measure `dx`, physical coordinates, normals if facet-based) with
the caller-supplied auxiliary data `w`. -/
def Form.parameters (w : Aux) (basis : GlobalBasis) : FormParameters Aux :=
  FormParameters.mk w basis.dx basis.x basis.normals

/-- A `Functional` wraps a user kernel from the parameter bundle to an
(elements x quadrature points) array. -/
structure Functional (Aux : Type) where
  form : FormParameters Aux → Mat

/-- Numpy `sum(m * dx, axis=1)` for same-shaped matrices: the elementwise
product summed along the quadrature-point axis, one scalar per element. -/
def sumAxis1 (m dx : Mat) : List ℚ :=
  List.zipWith (fun row drow => (List.zipWith (fun p q => p * q) row drow).sum) m dx

/-- Method `Functional.kernel`: `np.sum(self.form(w) * dx, axis=1)`. -/
def Functional.kernel (F : Functional Aux) (w : FormParameters Aux) (dx : Mat) : List ℚ :=
  sumAxis1 (F.form w) dx

/-- Method `Functional.assemble`: asserts that no second basis was supplied
(`assert vbasis is None` fails the call before any computation), then takes
the test basis to be `ubasis` and returns the per-element kernel reduction.
The `nthreads` argument is accepted and never read. -/
def Functional.assemble (F : Functional Aux) (ubasis : GlobalBasis)
    (vbasis : Option GlobalBasis) (w : Aux) (nthreads : Nat) : Option (List ℚ) :=
  match vbasis with
  | some _ => none
  | none => some (F.kernel (Form.parameters w ubasis) ubasis.dx)

/-!
Constants of the insulated-wire example (`docs/examples/insulated.py`) and
the closed-form reference temperature it prints.
-/

/-- Constant `radii = [2., 3.]`. -/
def radii : List ℚ := [2, 3]

/-- Constant `joule_heating = 5.`. -/
def jouleHeating : ℚ := 5

/-- Constant `heat_transfer_coefficient = 7.`. -/
def heatTransferCoefficient : ℚ := 7

/-- Constant `thermal_conductivity = np.array([101., 11.])`. -/
def thermalConductivity : List ℚ := [101, 11]

/-- The exact reference value computed by the script, written exactly as the
source expression over the module constants.  The transcendental logarithm is
kept abstract: `lg` is handed the ratio the source passes to `np.log`. -/
def insulatedExact (lg : ℚ → ℚ) : ℚ :=
  jouleHeating * (radii.getD 0 0) ^ 2 / 4 / thermalConductivity.getD 0 0 *
    (2 * thermalConductivity.getD 0 0 / heatTransferCoefficient / radii.getD 1 0
      + (2 * thermalConductivity.getD 0 0 / thermalConductivity.getD 1 0
          * lg (radii.getD 1 0 / radii.getD 0 0))
      + 1)

/-- The spec's closed form `T0 = A * a^2 / (4 * k0) *
(2 * k0 / (h * b) + 2 * k0 / k1 * ln (b / a) + 1)`, with the same abstract
logarithm `lg`. -/
def specT0 (lg : ℚ → ℚ) (A a b k0 k1 h : ℚ) : ℚ :=
  A * a ^ 2 / (4 * k0) * (2 * k0 / (h * b) + 2 * k0 / k1 * lg (b / a) + 1)

/-!
Remaining definitions used by the theorems below.
-/

/-- Product `x * c` for an ndarray `x` and a numeric scalar `c`: every entry scaled. -/
def Arr.scale (c : ℚ) (a : Arr) : Arr := Arr.mk a.shape (a.data.map (fun p => p * c))

/-- Python `__mul__` against a raw numeric scalar: `self.f * other` with scalar
broadcasting. -/
def DiscreteField.mulScalar (a : DiscreteField) (c : ℚ) : Option Arr :=
  a.f.map (Arr.scale c)

/-- Python `__rmul__ = __mul__`, scalar case. -/
def DiscreteField.rmulScalar : DiscreteField → ℚ → Option Arr := DiscreteField.mulScalar

/-- Relation between an input component and the corresponding output
component of `zeros_like`: absent stays absent, present becomes an all-zero
array of the same shape. -/
def zeroRel : Option Arr → Option Arr → Prop
  | none, none => True
  | some x, some z => Arr.sameShape x z = true ∧ Arr.allZero z = true
  | _, _ => False

/-- A field with value and div present but grad absent: the input for the
`_split` counterexample. -/
def dvdiv : DiscreteField :=
  DiscreteField.mk (some (Arr.mk [1] [5])) none (some (Arr.mk [1] [7])) none none

/-- A splittable field with value and div present, leading axis of length
two. -/
def dvdiv2 : DiscreteField :=
  DiscreteField.mk (some (Arr.mk [2, 1] [10, 20])) none
    (some (Arr.mk [2, 1] [30, 40])) none none

/-- The value `_split` returns on `dvdiv2`: the div slices land in the grad
slot. -/
def dvdiv2Split : List DiscreteField :=
  [DiscreteField.mk (some (Arr.mk [1] [10])) (some (Arr.mk [1] [30])) none none none,
   DiscreteField.mk (some (Arr.mk [1] [20])) (some (Arr.mk [1] [40])) none none none]

/-- The script's reference value coincides with the spec's closed form at the
script's parameters a = 2, b = 3, k0 = 101, k1 = 11, A = 5, h = 7, whatever
value the logarithm takes. -/
theorem insulatedExact_eq_specT0 (lg : ℚ → ℚ) :
    radii = [2, 3] ∧ jouleHeating = 5 ∧ heatTransferCoefficient = 7 ∧
    thermalConductivity = [101, 11] ∧
    insulatedExact lg = specT0 lg 5 2 3 101 11 7 := by
  refine ⟨rfl, rfl, rfl, rfl, ?_⟩
  simp only [insulatedExact, radii, jouleHeating, heatTransferCoefficient,
    thermalConductivity, specT0, List.getD]
  norm_num

/-!
Helper lemmas about `omap`.
-/

/-- A successful `omap` preserves the length. -/
theorem omap_some_length (g : α → Option β) :
    ∀ (xs : List α) (ys : List β), omap g xs = some ys → ys.length = xs.length := by
  intro xs
  induction xs with
  | nil =>
      intro ys h
      simp only [omap, Option.some.injEq] at h
      simp [← h]
  | cons x xs ih =>
      intro ys h
      simp only [omap] at h
      cases hg : g x with
      | none => rw [hg] at h; exact absurd h (by simp)
      | some y =>
          rw [hg] at h
          cases ho : omap g xs with
          | none => rw [ho] at h; exact absurd h (by simp)
          | some zs =>
              rw [ho] at h
              simp only [Option.some.injEq] at h
              rw [← h]
              simp [ih zs ho]

/-- A successful `omap` maps each position: `g` succeeds on the `i`-th input
and returns the `i`-th output. -/
theorem omap_some_getD (g : α → Option β) (a0 : α) (b0 : β) :
    ∀ (xs : List α) (ys : List β), omap g xs = some ys →
      ∀ i, i < xs.length → g (xs.getD i a0) = some (ys.getD i b0) := by
  intro xs
  induction xs with
  | nil => intro ys h i hi; simp at hi
  | cons x xs ih =>
      intro ys h i hi
      simp only [omap] at h
      cases hg : g x with
      | none => rw [hg] at h; exact absurd h (by simp)
      | some y =>
          rw [hg] at h
          cases ho : omap g xs with
          | none => rw [ho] at h; exact absurd h (by simp)
          | some zs =>
              rw [ho] at h
              simp only [Option.some.injEq] at h
              rw [← h]
              cases i with
              | zero => simpa using hg
              | succ j =>
                  simp only [List.getD_cons_succ]
                  exact ih zs ho j (by simpa using hi)

/-!
C1, C7, C9, C3.
-/

/-- C1: `Functional.assemble` fails (precondition violation) whenever a second
basis is supplied, and succeeds exactly when `vbasis` is absent, in which case
the test basis is taken to be `ubasis` itself. -/
theorem assemble_vbasis_precondition (F : Functional Aux) (ubasis : GlobalBasis)
    (w : Aux) (n : Nat) :
    (∀ vb : GlobalBasis, F.assemble ubasis (some vb) w n = none) ∧
    F.assemble ubasis none w n =
      some (F.kernel (Form.parameters w ubasis) ubasis.dx) :=
  ⟨fun _ => rfl, rfl⟩

/-- C7: two `Functional.assemble` calls differing only in `nthreads` return
the same result; the thread count never influences the value. -/
theorem assemble_nthreads_invariant (F : Functional Aux) (ubasis : GlobalBasis)
    (vbasis : Option GlobalBasis) (w : Aux) (n1 n2 : Nat) :
    F.assemble ubasis vbasis w n1 = F.assemble ubasis vbasis w n2 := by
  cases vbasis <;> rfl

/-- C9: `_split` reads `self.f.shape[0]`, so a field whose value component is
absent makes `_split` fail, whatever the other components hold. -/
theorem split_requires_value (d : DiscreteField) (h : d.value = none) :
    d.split = none := by
  simp [DiscreteField.split, DiscreteField.f, h]

/-- Witness for C9: a field with grad, div, curl, ggrad all present but value
absent still cannot be split. -/
theorem split_requires_value_witness :
    (DiscreteField.mk none (some (Arr.mk [2] [1, 2])) (some (Arr.mk [2] [3, 4]))
      (some (Arr.mk [2] [5, 6])) (some (Arr.mk [2] [7, 8]))).split = none :=
  split_requires_value _ rfl

/-- C3: the accessor `f` is the value component, `ddf` is the ggrad component,
and `df` is the first present component in the fixed order grad, div, curl,
falling back to the (possibly absent) curl component. -/
theorem accessors_spec (d : DiscreteField) :
    d.f = d.value ∧ d.ddf = d.ggrad ∧
    (∀ g, d.grad = some g → d.df = some g) ∧
    (d.grad = none → ∀ v, d.div = some v → d.df = some v) ∧
    (d.grad = none → d.div = none → d.df = d.curl) := by
  refine ⟨rfl, rfl, ?_, ?_, ?_⟩
  · intro g hg
    simp [DiscreteField.df, hg]
  · intro h v hv
    simp [DiscreteField.df, h, hv]
  · intro h1 h2
    cases hc : d.curl <;> simp [DiscreteField.df, h1, h2, hc]

/-- Witness for C3: on a field carrying only a div component, `df` returns it. -/
theorem accessors_spec_witness :
    (DiscreteField.mk none none (some (Arr.mk [] [3])) none none).df =
      some (Arr.mk [] [3]) :=
  (accessors_spec (DiscreteField.mk none none (some (Arr.mk [] [3])) none none)
    ).2.2.2.1 rfl (Arr.mk [] [3]) rfl

/-!
C4 and C10: multiplication.
-/

/-- The elementwise product of same-shaped arrays is commutative. -/
theorem Arr.mul_is_comm (a b : Arr) : Arr.mul a b = Arr.mul b a := by
  unfold Arr.mul
  rcases Decidable.em (a.shape = b.shape) with h | h
  · rw [if_pos h, if_pos h.symm, h]
    rw [List.zipWith_comm_of_comm (fun p q => p * q) (fun x y => mul_comm x y)]
  · rw [if_neg h, if_neg (fun hh => h hh.symm)]

/-- C4: multiplication of two `DiscreteField`s uses only the value
components — any derivative components of either operand may be erased
without changing the product — and equals the elementwise product of the two
value arrays; multiplying by a raw array multiplies the value component by it
elementwise. -/
theorem mul_uses_only_values (a b : DiscreteField) (c : Arr) :
    a.mul b = DiscreteField.mul (DiscreteField.mk a.value none none none none)
      (DiscreteField.mk b.value none none none none) ∧
    (∀ x y, a.value = some x → b.value = some y → a.mul b = Arr.mul x y) ∧
    (∀ x, a.value = some x → a.mulArr c = Arr.mul x c) := by
  refine ⟨rfl, ?_, ?_⟩
  · intro x y hx hy
    simp [DiscreteField.mul, DiscreteField.f, hx, hy]
  · intro x hx
    simp [DiscreteField.mulArr, DiscreteField.f, hx]

/-- Witness for C4: two concrete fields with conflicting derivative data
multiply to the elementwise product of their values alone. -/
theorem mul_uses_only_values_witness :
    DiscreteField.mul
      (DiscreteField.mk (some (Arr.mk [2] [3, 4])) (some (Arr.mk [2] [100, 200]))
        none none none)
      (DiscreteField.mk (some (Arr.mk [2] [5, 6])) none (some (Arr.mk [2] [300, 400]))
        none none) = some (Arr.mk [2] [15, 24]) :=
  ((mul_uses_only_values
      (DiscreteField.mk (some (Arr.mk [2] [3, 4])) (some (Arr.mk [2] [100, 200]))
        none none none)
      (DiscreteField.mk (some (Arr.mk [2] [5, 6])) none (some (Arr.mk [2] [300, 400]))
        none none)
      (Arr.mk [] [])).2.1 (Arr.mk [2] [3, 4]) (Arr.mk [2] [5, 6]) rfl rfl).trans
    (by norm_num [Arr.mul])

/-- C10: `__rmul__` is literally `__mul__`, so multiplying a raw array on the
left or on the right of a field is one and the same operation, and both equal
the elementwise product of the value component with the array (which is itself
commutative). -/
theorem rmul_is_mul (d : DiscreteField) (c : Arr) (q : ℚ) :
    d.rmulArr c = d.mulArr c ∧
    d.rmulScalar q = d.mulScalar q ∧
    (∀ x, d.value = some x →
      d.rmulArr c = Arr.mul x c ∧ d.mulArr c = Arr.mul x c ∧
        Arr.mul x c = Arr.mul c x ∧
        d.rmulScalar q = some (Arr.scale q x) ∧
        d.mulScalar q = some (Arr.scale q x)) := by
  refine ⟨rfl, rfl, ?_⟩
  intro x hx
  refine ⟨?_, ?_, Arr.mul_is_comm x c, ?_, ?_⟩ <;>
    simp [DiscreteField.rmulArr, DiscreteField.mulArr, DiscreteField.rmulScalar,
      DiscreteField.mulScalar, DiscreteField.f, hx]

/-- Witness for C10: a concrete right multiplication agrees with the left one
and with the elementwise product of the value array. -/
theorem rmul_is_mul_witness :
    (DiscreteField.mk (some (Arr.mk [2] [2, 3])) (some (Arr.mk [2] [9, 9]))
      none none none).rmulArr (Arr.mk [2] [10, 100]) =
      some (Arr.mk [2] [20, 300]) :=
  (((rmul_is_mul
      (DiscreteField.mk (some (Arr.mk [2] [2, 3])) (some (Arr.mk [2] [9, 9]))
        none none none)
      (Arr.mk [2] [10, 100]) 0).2.2 (Arr.mk [2] [2, 3]) rfl).1).trans
    (by norm_num [Arr.mul])

/-!
C5: `zeros_like`.
-/

/-- Applying `zerosLike` keeps the shape (and the buffer length). -/
theorem sameShape_zerosLike (x : Arr) : Arr.sameShape x x.zerosLike = true := by
  simp [Arr.sameShape, Arr.zerosLike]

/-- Applying `zerosLike` produces an all-zero buffer. -/
theorem allZero_zerosLike (x : Arr) : Arr.allZero x.zerosLike = true := by
  simp [Arr.allZero, Arr.zerosLike, List.all_eq_true]

/-- Mapping an optional component through `zerosLike` realises `zeroRel`. -/
theorem zeroRel_map_zerosLike (o : Option Arr) : zeroRel o (o.map Arr.zerosLike) := by
  cases o with
  | none => trivial
  | some x => exact ⟨sameShape_zerosLike x, allZero_zerosLike x⟩

/-- C5: `zeros_like` replaces every present component by a same-shaped zero
array and keeps every absent component absent, allocating nothing for the
absent ones. -/
theorem zerosLike_spec (d : DiscreteField) :
    zeroRel d.value d.zerosLike.value ∧ zeroRel d.grad d.zerosLike.grad ∧
    zeroRel d.div d.zerosLike.div ∧ zeroRel d.curl d.zerosLike.curl ∧
    zeroRel d.ggrad d.zerosLike.ggrad :=
  ⟨zeroRel_map_zerosLike d.value, zeroRel_map_zerosLike d.grad,
    zeroRel_map_zerosLike d.div, zeroRel_map_zerosLike d.curl,
    zeroRel_map_zerosLike d.ggrad⟩

/-- Witness for C5: on a field with only value and grad present, the theorem
applies, and the result evaluates to the value/grad-zeroed field with div,
curl, ggrad still absent. -/
theorem zerosLike_spec_witness :
    zeroRel (DiscreteField.mk (some (Arr.mk [2] [1, 2])) (some (Arr.mk [2] [3, 4]))
        none none none).div
      (DiscreteField.mk (some (Arr.mk [2] [1, 2])) (some (Arr.mk [2] [3, 4]))
        none none none).zerosLike.div ∧
    (DiscreteField.mk (some (Arr.mk [2] [1, 2])) (some (Arr.mk [2] [3, 4]))
        none none none).zerosLike =
      DiscreteField.mk (some (Arr.mk [2] [0, 0])) (some (Arr.mk [2] [0, 0]))
        none none none :=
  ⟨(zerosLike_spec (DiscreteField.mk (some (Arr.mk [2] [1, 2]))
      (some (Arr.mk [2] [3, 4])) none none none)).2.2.1, by decide⟩

/-!
C2: the value computed by `Functional.assemble`.
-/

/-- C2: with no second basis, `Functional.assemble` returns the per-element
array whose entry for element `e` is the sum over that element's quadrature
points of the kernel output times `dx` (summation along axis 1); the result
has one entry per element and no scatter-add is involved. -/
theorem assemble_functional_value (F : Functional Aux) (ubasis : GlobalBasis)
    (w : Aux) (n : Nat) (e : Nat)
    (he : e < (F.form (Form.parameters w ubasis)).length)
    (hd : e < ubasis.dx.length) :
    ∃ r, F.assemble ubasis none w n = some r ∧
      r.length = min (F.form (Form.parameters w ubasis)).length ubasis.dx.length ∧
      r.getD e 0 =
        (List.zipWith (fun p q => p * q)
          ((F.form (Form.parameters w ubasis)).getD e [])
          (ubasis.dx.getD e [])).sum := by
  refine ⟨F.kernel (Form.parameters w ubasis) ubasis.dx, rfl, ?_, ?_⟩
  · simp [Functional.kernel, sumAxis1]
  · have hlen : e < (List.zipWith
        (fun row drow => (List.zipWith (fun p q => p * q) row drow).sum)
        (F.form (Form.parameters w ubasis)) ubasis.dx).length := by
      rw [List.length_zipWith]
      exact lt_min he hd
    show (List.zipWith
        (fun row drow => (List.zipWith (fun p q => p * q) row drow).sum)
        (F.form (Form.parameters w ubasis)) ubasis.dx).getD e 0 = _
    rw [List.getD_eq_getElem _ _ hlen, List.getElem_zipWith,
      List.getD_eq_getElem _ _ he, List.getD_eq_getElem _ _ hd]

/-- Witness for C2: a concrete two-element, two-point functional assembly. -/
theorem assemble_functional_value_witness :
    ∃ r, Functional.assemble (Functional.mk (fun _ => [[1, 2], [3, 4]]))
        (GlobalBasis.mk [[5, 6], [7, 8]] [] none) none () 1 = some r ∧
      r.length = min ((Functional.mk (fun _ : FormParameters Unit => [[1, 2], [3, 4]])).form
        (Form.parameters () (GlobalBasis.mk [[5, 6], [7, 8]] [] none))).length
        (GlobalBasis.mk [[5, 6], [7, 8]] [] none).dx.length ∧
      r.getD 0 0 =
        (List.zipWith (fun p q => p * q)
          (((Functional.mk (fun _ : FormParameters Unit => [[1, 2], [3, 4]])).form
            (Form.parameters () (GlobalBasis.mk [[5, 6], [7, 8]] [] none))).getD 0 [])
          ((GlobalBasis.mk [[5, 6], [7, 8]] [] none).dx.getD 0 [])).sum :=
  assemble_functional_value (Functional.mk (fun _ => [[1, 2], [3, 4]]))
    (GlobalBasis.mk [[5, 6], [7, 8]] [] none) () 1 0 (by decide) (by decide)

/-!
C6: `_split` places the slices positionally, not slot-by-slot.
-/

/-- Positional construction fills the first slots in component order and
leaves the remaining slots absent. -/
theorem ofList_components (cs : List Arr) :
    (DiscreteField.ofList cs).components =
      (cs.map some ++ List.replicate (5 - cs.length) none).take 5 := by
  match cs with
  | [] => rfl
  | [a] => rfl
  | [a, b] => rfl
  | [a, b, c] => rfl
  | [a, b, c, d] => rfl
  | a :: b :: c :: d :: e :: rest =>
      simp [DiscreteField.ofList, DiscreteField.components]

/-- Counterexample to C6: on a field with value and div present and grad
absent, `_split` does not place the div slice in the div slot of the result
(which the claim predicts); the div slice lands in the grad slot and the div
slot of the result is absent. -/
theorem split_slots_counterexample :
    dvdiv.split = some [DiscreteField.mk (some (Arr.mk [] [5]))
        (some (Arr.mk [] [7])) none none none] ∧
    dvdiv.split ≠ some [DiscreteField.mk (some (Arr.mk [] [5])) none
        (some (Arr.mk [] [7])) none none] ∧
    dvdiv.div = some (Arr.mk [1] [7]) := by
  refine ⟨by decide, by decide, rfl⟩

/-- C6 (amended): for a splittable field, `_split` returns one field per
leading-axis index of the value component; the `i`-th result is the
positional construction from the `i`-th leading-axis slices of the present
components taken in component order, so the slices fill the first slots
(value, grad, div, curl, ggrad) in order — components keep their own slots
only when the present components form an initial segment of the slot order —
and the remaining slots are absent, nothing being allocated for them. -/
theorem split_positional (d : DiscreteField) (l : List DiscreteField)
    (hl : d.split = some l) :
    (∃ v, d.value = some v ∧ v.shape0 = some l.length) ∧
    ∀ i, i < l.length →
      ∃ cs, omap (fun a => Arr.getLead a i) d.presentComponents = some cs ∧
        l.getD i (DiscreteField.mk none none none none none) =
          DiscreteField.ofList cs ∧
        (l.getD i (DiscreteField.mk none none none none none)).components =
          (cs.map some ++ List.replicate (5 - cs.length) none).take 5 := by
  cases hv : d.value with
  | none => simp [DiscreteField.split, DiscreteField.f, hv] at hl
  | some v =>
      cases hs : v.shape0 with
      | none => simp [DiscreteField.split, DiscreteField.f, hv, hs] at hl
      | some n =>
          simp only [DiscreteField.split, DiscreteField.f, hv, hs] at hl
          have hlen : l.length = n := by
            have := omap_some_length d.splitAt1 (List.range n) l hl
            simpa using this
          refine ⟨⟨v, rfl, by rw [hs, hlen]⟩, ?_⟩
          intro i hi
          have hin : i < n := hlen ▸ hi
          have hg := omap_some_getD d.splitAt1 0
            (DiscreteField.mk none none none none none) (List.range n) l hl i
            (by simpa using hin)
          rw [List.getD_eq_getElem _ _ (by simpa using hin)] at hg
          simp only [List.getElem_range] at hg
          rw [DiscreteField.splitAt1] at hg
          obtain ⟨cs, hcs, hof⟩ := Option.map_eq_some'.mp hg
          exact ⟨cs, hcs, hof.symm, by rw [← hof, ofList_components]⟩

/-- Witness for the amended C6 at a concrete splittable field. -/
theorem split_positional_witness :
    (∃ v, dvdiv2.value = some v ∧ v.shape0 = some dvdiv2Split.length) ∧
    ∀ i, i < dvdiv2Split.length →
      ∃ cs, omap (fun a => Arr.getLead a i) dvdiv2.presentComponents = some cs ∧
        dvdiv2Split.getD i (DiscreteField.mk none none none none none) =
          DiscreteField.ofList cs ∧
        (dvdiv2Split.getD i (DiscreteField.mk none none none none none)).components =
          (cs.map some ++ List.replicate (5 - cs.length) none).take 5 :=
  split_positional dvdiv2 dvdiv2Split (by decide)
